import Mathlib

/-!
Verification development for the empirical-interpolation (EI-Greedy, DEIM)
and Newton algorithms of the pymor repository
(src/pymor/algorithms/ei.py and src/pymor/algorithms/newton.py).

Modelling conventions:
* a vector is a List of rationals (exact arithmetic in place of IEEE
  floating point; the verified claims do not hinge on rounding);
* a VectorArray is a List of vectors; a DOF is a natural-number index;
* the caller-supplied error norm of ei_greedy is a parameter mapping a
  vector to a scalar (when the Python argument is None, pymor uses the
  external l2_norm method of the VectorArray interface, which lives
  outside the sources under verification and is one instance of this
  parameter);
* numpy argmax over an empty array raises ValueError; any uncaught
  Python exception is modelled by the value none;
* the while-True loops run on explicit fuel; the fuel bounds chosen at
  the call sites are proved sufficient, so fuel exhaustion (also none)
  is unreachable on well-formed input;
* the relative-tolerance quotient max_err / initial_max_err uses the
  total division of the rationals; the corner case of a zero initial
  error (where numpy float division yields inf or nan without raising)
  is not exercised by any claim settled here.
-/

namespace PymorEI

/-- First index of the maximum entry together with that entry
(numpy argmax semantics: ties resolved to the smallest index),
none on an empty array (numpy raises ValueError there). -/
def amaxP : List ℚ → Option (ℕ × ℚ)
  | [] => none
  | x :: xs =>
    match amaxP xs with
    | none => some (0, x)
    | some (j, v) => if x < v then some (j + 1, v) else some (0, x)

/-- Index of the largest-magnitude entry of a vector: the amax operation
of the VectorArray interface, used as new_vec.amax()[0][0]. -/
def amaxAbs (v : List ℚ) : Option ℕ :=
  (amaxP (v.map (fun q => |q|))).map Prod.fst

/-- One vector of the in-place update U.axpy(-new_dof_values[:, 0], new_vec):
from vector u subtract (value of u at new_dof) times new_vec. -/
def deflate (new_dof : ℕ) (new_vec u : List ℚ) : List ℚ :=
  List.zipWith (fun ui bi => ui - u.getD new_dof 0 * bi) u new_vec

/-- Which break of the main ei_greedy loop produced the result
(the five distinct break sites of the source). -/
inductive StopReason where
  | maxDofsReached
  | atolReached
  | rtolReached
  | dofRepeated
  | zeroPivot
  deriving DecidableEq

/-- Results of ei_greedy: interpolation_dofs, collateral_basis and the
errors diagnostic (the triangularity_errors diagnostic is a pure
function of dofs and basis computed after the loop and is omitted). -/
structure EIResult where
  interpolation_dofs : List ℕ
  collateral_basis : List (List ℚ)
  max_errs : List ℚ
  reason : StopReason
  deriving DecidableEq

/-- Parameters of ei_greedy. The error_norm field covers both a
caller-supplied norm functional and the default Euclidean norm
(computed by the external VectorArray backend when the argument is None). -/
structure EIParams where
  error_norm : List ℚ → ℚ
  atol : Option ℚ
  rtol : Option ℚ
  max_interpolation_dofs : Option ℕ

/-- Main loop of the sequential ei_greedy (lines 102-141 of ei.py),
with explicit fuel. Note that ERR and U alias the same array in the
source, so a single list U is carried here. -/
def eiLoop (p : EIParams) (initial_max_err : ℚ) :
    ℕ → List (List ℚ) → List ℕ → List (List ℚ) → List ℚ → ℕ → ℚ → Option EIResult
  | 0, _, _, _, _, _, _ => none
  | fuel + 1, U, dofs, basis, max_errs, max_err_ind, max_err =>
    if (p.max_interpolation_dofs.map (fun m => decide (m ≤ dofs.length))).getD false then
      some ⟨dofs, basis, max_errs, .maxDofsReached⟩
    else if (p.atol.map (fun a => decide (max_err ≤ a))).getD false then
      some ⟨dofs, basis, max_errs, .atolReached⟩
    else if (p.rtol.map (fun r => decide (max_err / initial_max_err ≤ r))).getD false then
      some ⟨dofs, basis, max_errs, .rtolReached⟩
    else
      let new_vec_raw := U.getD max_err_ind []
      match amaxAbs new_vec_raw with
      | none => none
      | some new_dof =>
        if new_dof ∈ dofs then
          some ⟨dofs, basis, max_errs, .dofRepeated⟩
        else
          let new_dof_value := new_vec_raw.getD new_dof 0
          if new_dof_value = 0 then
            some ⟨dofs, basis, max_errs, .zeroPivot⟩
          else
            let new_vec := new_vec_raw.map (fun q => q * (1 / new_dof_value))
            let U' := U.map (deflate new_dof new_vec)
            let errs := U'.map p.error_norm
            match amaxP errs with
            | none => none
            | some (i, e) =>
              eiLoop p initial_max_err fuel U' (dofs ++ [new_dof]) (basis ++ [new_vec])
                (max_errs ++ [max_err]) i e

/-- Largest vector dimension occurring in the array, used as a fuel bound
(interpolation DOFs are distinct indices below this dimension). -/
def maxDim (U : List (List ℚ)) : ℕ :=
  U.foldr (fun v m => max v.length m) 0

/-- Sequential ei_greedy (the pool-less branch of ei_greedy, ei.py
lines 82-154). The result none models the uncaught ValueError numpy
raises when np.argmax is applied to the error array of an empty input. -/
def ei_greedy (p : EIParams) (U : List (List ℚ)) : Option EIResult :=
  match amaxP (U.map p.error_norm) with
  | none => none
  | some (i, e) => eiLoop p e (maxDim U + 1) U [] [] [] i e

/-! Basic facts about the argmax operation. -/

theorem amaxP_eq_none_iff (l : List ℚ) : amaxP l = none ↔ l = [] := by
  cases l with
  | nil => simp [amaxP]
  | cons x xs =>
    simp only [amaxP]
    constructor
    · intro h
      cases hxs : amaxP xs <;> simp [hxs] at h
      · split at h <;> simp at h
    · intro h
      exact absurd h (List.cons_ne_nil x xs)

theorem amaxP_isSome {l : List ℚ} (h : l ≠ []) : ∃ i v, amaxP l = some (i, v) := by
  cases hl : amaxP l with
  | none => exact absurd ((amaxP_eq_none_iff l).mp hl) h
  | some p => exact ⟨p.1, p.2, by simp [hl]⟩

theorem amaxP_lt_length {l : List ℚ} {i : ℕ} {v : ℚ} (h : amaxP l = some (i, v)) :
    i < l.length := by
  induction l generalizing i v with
  | nil => simp [amaxP] at h
  | cons x xs ih =>
    simp only [amaxP] at h
    cases hxs : amaxP xs with
    | none =>
      rw [hxs] at h
      simp only [Option.some.injEq, Prod.mk.injEq] at h
      simp [← h.1]
    | some q =>
      obtain ⟨j, w⟩ := q
      rw [hxs] at h
      simp only at h
      split at h
      · simp only [Option.some.injEq, Prod.mk.injEq] at h
        have hj := ih hxs
        simp only [List.length_cons, ← h.1]
        omega
      · simp only [Option.some.injEq, Prod.mk.injEq] at h
        simp [← h.1]

theorem amaxP_getD {l : List ℚ} {i : ℕ} {v : ℚ} (h : amaxP l = some (i, v)) :
    l.getD i 0 = v := by
  induction l generalizing i v with
  | nil => simp [amaxP] at h
  | cons x xs ih =>
    simp only [amaxP] at h
    cases hxs : amaxP xs with
    | none =>
      rw [hxs] at h
      simp only [Option.some.injEq, Prod.mk.injEq] at h
      obtain ⟨h1, h2⟩ := h
      subst h2
      simp [← h1]
    | some q =>
      obtain ⟨j, w⟩ := q
      rw [hxs] at h
      simp only at h
      split at h
      · simp only [Option.some.injEq, Prod.mk.injEq] at h
        obtain ⟨h1, h2⟩ := h
        subst h2
        rw [← h1]
        simpa using ih hxs
      · simp only [Option.some.injEq, Prod.mk.injEq] at h
        obtain ⟨h1, h2⟩ := h
        subst h2
        simp [← h1]

theorem amaxAbs_lt_length {v : List ℚ} {i : ℕ} (h : amaxAbs v = some i) :
    i < v.length := by
  unfold amaxAbs at h
  cases hm : amaxP (v.map (fun q => |q|)) with
  | none => rw [hm] at h; simp at h
  | some q =>
    obtain ⟨j, w⟩ := q
    rw [hm] at h
    simp at h
    subst h
    have := amaxP_lt_length hm
    simpa using this

theorem getD_concat {α : Type} (xs : List α) (a d : α) :
    (xs ++ [a]).getD xs.length d = a := by
  simp [List.getD_eq_getElem?_getD, List.getElem?_append_right]

theorem getD_map_of_lt {α β : Type} (f : α → β) (l : List α) {i : ℕ}
    (h : i < l.length) (d : β) (d' : α) : (l.map f).getD i d = f (l.getD i d') := by
  rw [List.getD_eq_getElem _ _ (by simpa using h), List.getD_eq_getElem _ _ h]
  simp

theorem nodup_length_le {l : List ℕ} {n : ℕ} (hl : l.Nodup) (hb : ∀ x ∈ l, x < n) :
    l.length ≤ n := by
  have h1 : l.toFinset.card = l.length := List.toFinset_card_of_nodup hl
  have h2 : l.toFinset ⊆ Finset.range n := by
    intro x hx
    simp only [List.mem_toFinset] at hx
    simpa using hb x hx
  have := Finset.card_le_card h2
  simpa [h1] using this

/-- Combined invariant of the ei_greedy main loop: the lengths of the
interpolation DOFs, the collateral basis and the errors diagnostic stay
equal, the DOFs stay duplicate-free, and each basis vector evaluates to
exactly 1 at its own DOF. -/
theorem eiLoop_invariant (p : EIParams) (ime : ℚ) :
    ∀ (fuel : ℕ) (U : List (List ℚ)) (dofs : List ℕ) (basis : List (List ℚ))
      (max_errs : List ℚ) (mi : ℕ) (me : ℚ) (r : EIResult),
      eiLoop p ime fuel U dofs basis max_errs mi me = some r →
      dofs.length = basis.length →
      dofs.length = max_errs.length →
      dofs.Nodup →
      (∀ i, i < dofs.length → (basis.getD i []).getD (dofs.getD i 0) 0 = 1) →
      r.interpolation_dofs.length = r.collateral_basis.length ∧
      r.interpolation_dofs.length = r.max_errs.length ∧
      r.interpolation_dofs.Nodup ∧
      (∀ i, i < r.interpolation_dofs.length →
        (r.collateral_basis.getD i []).getD (r.interpolation_dofs.getD i 0) 0 = 1) := by
  intro fuel
  induction fuel with
  | zero =>
    intro U dofs basis max_errs mi me r h _ _ _ _
    simp [eiLoop] at h
  | succ n ih =>
    intro U dofs basis max_errs mi me r h h1 h2 h3 h4
    simp only [eiLoop] at h
    split at h
    · injection h with h; subst h; exact ⟨h1, h2, h3, h4⟩
    split at h
    · injection h with h; subst h; exact ⟨h1, h2, h3, h4⟩
    split at h
    · injection h with h; subst h; exact ⟨h1, h2, h3, h4⟩
    split at h
    · exact absurd h (by simp)
    rename_i new_dof hdof
    split at h
    · injection h with h; subst h; exact ⟨h1, h2, h3, h4⟩
    rename_i hmem
    split at h
    · injection h with h; subst h; exact ⟨h1, h2, h3, h4⟩
    rename_i hval
    split at h
    · exact absurd h (by simp)
    rename_i i e hargmax
    refine ih _ _ _ _ _ _ _ h ?_ ?_ ?_ ?_
    · simp [h1]
    · simp [h2]
    · simp [List.nodup_append, h3, hmem]
    · intro j hj
      simp only [List.length_append, List.length_cons, List.length_nil] at hj
      rcases Nat.lt_or_ge j dofs.length with hjlt | hjge
      · rw [List.getD_append _ _ _ _ hjlt, List.getD_append _ _ _ _ (h1 ▸ hjlt)]
        exact h4 j hjlt
      · have hje : j = dofs.length := by omega
        subst hje
        rw [getD_concat]
        rw [h1, getD_concat]
        have hlt : new_dof < (U.getD mi []).length := amaxAbs_lt_length hdof
        rw [getD_map_of_lt _ _ hlt _ 0]
        rw [mul_one_div, div_self hval]

theorem amaxAbs_isSome {v : List ℚ} (h : v ≠ []) : ∃ i, amaxAbs v = some i := by
  have hm : v.map (fun q => |q|) ≠ [] := by simpa using h
  obtain ⟨i, w, hw⟩ := amaxP_isSome hm
  exact ⟨i, by simp [amaxAbs, hw]⟩

theorem deflate_length (nd : ℕ) (nv u : List ℚ) :
    (deflate nd nv u).length = min u.length nv.length := by
  simp [deflate]

theorem getD_mem {α : Type} {l : List α} {i : ℕ} (h : i < l.length) (d : α) :
    l.getD i d ∈ l := by
  rw [List.getD_eq_getElem _ _ h]
  exact List.getElem_mem h

/-- Totality of the ei_greedy main loop: on a nonempty array of uniform
positive dimension the loop always terminates at one of its five break
sites. The fuel argument is a pigeonhole bound: every accepted step adds
a fresh DOF below the dimension, so at most d steps are accepted. -/
theorem eiLoop_total (p : EIParams) (ime : ℚ) (d : ℕ) (hd : 0 < d) :
    ∀ (fuel : ℕ) (U : List (List ℚ)) (dofs : List ℕ) (basis : List (List ℚ))
      (max_errs : List ℚ) (mi : ℕ) (me : ℚ),
      U ≠ [] →
      (∀ v ∈ U, v.length = d) →
      dofs.Nodup →
      (∀ x ∈ dofs, x < d) →
      d + 1 ≤ fuel + dofs.length →
      mi < U.length →
      ∃ r, eiLoop p ime fuel U dofs basis max_errs mi me = some r := by
  intro fuel
  induction fuel with
  | zero =>
    intro U dofs basis max_errs mi me hU hdim hnd hb hfuel hmi
    exfalso
    have := nodup_length_le hnd hb
    omega
  | succ n ih =>
    intro U dofs basis max_errs mi me hU hdim hnd hb hfuel hmi
    simp only [eiLoop]
    split
    · exact ⟨_, rfl⟩
    split
    · exact ⟨_, rfl⟩
    split
    · exact ⟨_, rfl⟩
    have hraw : (U.getD mi []) ∈ U := getD_mem hmi []
    have hrawd : (U.getD mi []).length = d := hdim _ hraw
    have hrawne : (U.getD mi []) ≠ [] := by
      intro hc
      rw [hc] at hrawd
      simp at hrawd
      omega
    split
    · rename_i hc
      obtain ⟨i0, h0⟩ := amaxAbs_isSome hrawne
      rw [h0] at hc
      simp at hc
    rename_i new_dof hdof
    split
    · exact ⟨_, rfl⟩
    rename_i hmem
    split
    · exact ⟨_, rfl⟩
    rename_i hval
    have hndlt : new_dof < d := hrawd ▸ amaxAbs_lt_length hdof
    split
    · rename_i hc
      have herrne :
          (U.map (deflate new_dof
            (List.map (fun q => q * (1 / (U.getD mi []).getD new_dof 0)) (U.getD mi [])))).map
              p.error_norm ≠ [] := by
        simpa using hU
      obtain ⟨i, e, hie⟩ := amaxP_isSome herrne
      rw [hie] at hc
      simp at hc
    rename_i i e hie
    have hU'ne :
        U.map (deflate new_dof
          (List.map (fun q => q * (1 / (U.getD mi []).getD new_dof 0)) (U.getD mi []))) ≠ [] := by
      simpa using hU
    refine ih _ (dofs ++ [new_dof]) _ _ i e hU'ne ?_ ?_ ?_ ?_ ?_
    · intro v hv
      simp only [List.mem_map] at hv
      obtain ⟨u, hu, rfl⟩ := hv
      rw [deflate_length, List.length_map, hdim u hu, hrawd]
      simp
    · simp [List.nodup_append, hnd, hmem]
    · intro x hx
      simp only [List.mem_append, List.mem_singleton] at hx
      rcases hx with hx | hx
      · exact hb x hx
      · subst hx; exact hndlt
    · simp only [List.length_append, List.length_singleton]
      omega
    · have := amaxP_lt_length hie
      simpa using this

theorem maxDim_uniform {U : List (List ℚ)} {d : ℕ} (hU : U ≠ [])
    (hdim : ∀ v ∈ U, v.length = d) : maxDim U = d := by
  induction U with
  | nil => exact absurd rfl hU
  | cons u rest ih =>
    by_cases hr : rest = []
    · subst hr
      simp [maxDim, hdim u (by simp)]
    · have hrest : maxDim rest = d := ih hr (fun v hv => hdim v (by simp [hv]))
      have : maxDim (u :: rest) = max u.length (maxDim rest) := rfl
      rw [this, hrest, hdim u (by simp)]
      simp

/-- Sup norm of a vector, used as one concrete instance of the
caller-supplied error_norm parameter. -/
def supNorm (v : List ℚ) : ℚ := (v.map (fun q => |q|)).foldr max 0

/-- C2 (amended): on a zero-length input collection, ei_greedy does not
return at all: the initial maximum-error computation applies np.argmax
to an empty error array, which raises ValueError before any stopping
check is reached (modelled by the result none). -/
theorem ei_greedy_empty_raises (p : EIParams) : ei_greedy p [] = none := rfl

/-- C2 counterexample: with tolerances set, ei_greedy on the empty
collection still fails at the initial argmax instead of stopping
gracefully with an empty dofs/basis result, refuting the claim at this
concrete input. -/
theorem ei_greedy_empty_counterexample :
    ei_greedy ⟨supNorm, some 0, some 0, none⟩ [] = none := rfl

/-- C4: on any nonempty collection of uniform positive dimension,
ei_greedy terminates with a result (degenerate selection, repeated DOF
or zero pivot, is a graceful early stop, not an error) and the returned
interpolation DOFs contain no duplicate values. -/
theorem ei_greedy_total_nodup (p : EIParams) (U : List (List ℚ)) (d : ℕ)
    (hU : U ≠ []) (hd : 0 < d) (hdim : ∀ v ∈ U, v.length = d) :
    ∃ r, ei_greedy p U = some r ∧ r.interpolation_dofs.Nodup := by
  unfold ei_greedy
  have hne : U.map p.error_norm ≠ [] := by simpa using hU
  obtain ⟨i, e, hie⟩ := amaxP_isSome hne
  rw [hie]
  have hmi : i < U.length := by simpa using amaxP_lt_length hie
  have hmd : maxDim U = d := maxDim_uniform hU hdim
  obtain ⟨r, hr⟩ :=
    eiLoop_total p e d hd (maxDim U + 1) U [] [] [] i e hU hdim (by simp) (by simp)
      (by rw [hmd]; simp) hmi
  obtain ⟨_, _, hnd, _⟩ :=
    eiLoop_invariant p e _ _ _ _ _ _ _ r hr (by simp) (by simp) (by simp) (by simp)
  exact ⟨r, hr, hnd⟩

/-- C4 witness at a concrete input. -/
theorem ei_greedy_total_nodup_witness :
    ∃ r, ei_greedy ⟨supNorm, none, none, none⟩ [[1, 2], [3, 4]] = some r ∧
      r.interpolation_dofs.Nodup :=
  ei_greedy_total_nodup ⟨supNorm, none, none, none⟩ [[1, 2], [3, 4]] 2
    (by simp) (by simp)
    (by
      intro v hv
      simp only [List.mem_cons, List.not_mem_nil, or_false] at hv
      rcases hv with h | h <;> subst h <;> rfl)

/-- C5: every collateral basis vector returned by ei_greedy evaluates to
exactly 1 at its own interpolation DOF (exact arithmetic: the float
tolerance of the claim is met exactly). -/
theorem ei_greedy_basis_one_at_own_dof (p : EIParams) (U : List (List ℚ))
    (r : EIResult) (i : ℕ) (h : ei_greedy p U = some r)
    (hi : i < r.interpolation_dofs.length) :
    (r.collateral_basis.getD i []).getD (r.interpolation_dofs.getD i 0) 0 = 1 := by
  unfold ei_greedy at h
  cases hm : amaxP (U.map p.error_norm) with
  | none => rw [hm] at h; simp at h
  | some q =>
    obtain ⟨j, e⟩ := q
    rw [hm] at h
    simp only at h
    obtain ⟨_, _, _, hone⟩ :=
      eiLoop_invariant p e _ _ _ _ _ _ _ r h (by simp) (by simp) (by simp) (by simp)
    exact hone i hi

/-- C6 (amended): the errors diagnostic of ei_greedy has exactly one
entry per accepted interpolation DOF; no monotonicity holds in general
(see the counterexample for an increasing error sequence). -/
theorem ei_greedy_errors_length (p : EIParams) (U : List (List ℚ)) (r : EIResult)
    (h : ei_greedy p U = some r) :
    r.max_errs.length = r.interpolation_dofs.length := by
  unfold ei_greedy at h
  cases hm : amaxP (U.map p.error_norm) with
  | none => rw [hm] at h; simp at h
  | some q =>
    obtain ⟨j, e⟩ := q
    rw [hm] at h
    simp only at h
    obtain ⟨_, hlen, _, _⟩ :=
      eiLoop_invariant p e _ _ _ _ _ _ _ r h (by simp) (by simp) (by simp) (by simp)
    exact hlen.symm

/-- C6 counterexample: a concrete ei_greedy run (sup norm supplied as
error_norm, no tolerances) whose errors diagnostic increases from 1 to
131/100 between the first and the second accepted iteration. The
increased entry is not the final entry of the sequence (a third entry
1/4 follows), so it is not covered by the degenerate-final-entry
exception of the claim: deflation by the first basis vector can enlarge
the error of another vector. -/
theorem ei_greedy_errors_increase_counterexample :
    ei_greedy ⟨supNorm, none, none, none⟩
        [[1, 9/10, 0], [-9/10, 1/2, 0], [0, 0, 1/4]] =
      some ⟨[0, 1, 2], [[1, 9/10, 0], [0, 1, 0], [0, 0, 1]], [1, 131/100, 1/4],
        .dofRepeated⟩ ∧
    ¬ ((131 : ℚ) / 100 ≤ 1) := by
  constructor
  · norm_num [ei_greedy, eiLoop, amaxP, amaxAbs, deflate, maxDim, supNorm,
      abs_neg, abs_of_nonneg]
  · norm_num

/-! The DEIM algorithm (ei.py lines 157-233). The POD routine producing
the collateral basis is an external collaborator (pymor.algorithms.pod)
and enters as the collateral_basis argument; the dense linear solver
np.linalg.solve is likewise external and enters as the solve argument
(none models the LinAlgError it raises on singular matrices). -/

/-- Difference of two vectors, modelling ERR -= U_interpolated. -/
def vsub (u v : List ℚ) : List ℚ := List.zipWith (fun a b => a - b) u v

/-- Linear combination sum of c_j times vs_j, modelling
collateral_basis[:k].lincomb(coefficients) for a single coefficient row. -/
def lincomb (cs : List ℚ) (vs : List (List ℚ)) : List ℚ :=
  match List.zipWith (fun c v => v.map (fun q => c * q)) cs vs with
  | [] => []
  | h :: t => t.foldl (fun acc w => List.zipWith (fun a b => a + b) acc w) h

/-- The values of vector v at the listed DOFs, modelling v.dofs(dofs)
for a single vector. -/
def dofsRow (v : List ℚ) (dofs : List ℕ) : List ℚ :=
  dofs.map (fun d => v.getD d 0)

/-- The interpolation matrix collateral_basis[:k].dofs(dofs).T of deim. -/
def interpMatrix (basis : List (List ℚ)) (dofs : List ℕ) : List (List ℚ) :=
  ((basis.take dofs.length).map (fun w => dofsRow w dofs)).transpose

/-- DOF-selection loop of deim (ei.py lines 204-224), iterating once over
the POD basis vectors in order. -/
def deimLoop (solve : List (List ℚ) → List ℚ → Option (List ℚ))
    (basis : List (List ℚ)) :
    List (List ℚ) → List ℕ → List (List ℚ) → Option (List ℕ)
  | [], dofs, _ => some dofs
  | v :: rest, dofs, mat =>
    let ERRo : Option (List ℚ) :=
      if 0 < dofs.length then
        (solve mat (dofsRow v dofs)).map
          (fun coefficients => vsub v (lincomb coefficients (basis.take dofs.length)))
      else some v
    match ERRo with
    | none => none
    | some ERR =>
      match amaxAbs ERR with
      | none => none
      | some new_dof =>
        if new_dof ∈ dofs then some dofs
        else
          deimLoop solve basis rest (dofs ++ [new_dof])
            (interpMatrix basis (dofs ++ [new_dof]))

/-- deim (ei.py lines 157-233) given the POD output as collateral_basis:
runs the selection loop, then truncates the collateral basis to the
number of DOFs actually chosen when the loop stopped early. -/
def deim (solve : List (List ℚ) → List ℚ → Option (List ℚ))
    (collateral_basis : List (List ℚ)) : Option (List ℕ × List (List ℚ)) :=
  (deimLoop solve collateral_basis collateral_basis [] []).map
    (fun dofs =>
      (dofs,
        if dofs.length < collateral_basis.length then
          collateral_basis.take dofs.length
        else collateral_basis))

/-- Invariant of the deim selection loop: duplicate-freeness of the DOFs
is preserved and at most one DOF is added per remaining basis vector. -/
theorem deimLoop_nodup_len (solve : List (List ℚ) → List ℚ → Option (List ℚ))
    (basis : List (List ℚ)) :
    ∀ (rest : List (List ℚ)) (dofs : List ℕ) (mat : List (List ℚ))
      (dofs' : List ℕ),
      deimLoop solve basis rest dofs mat = some dofs' →
      dofs.Nodup →
      dofs'.Nodup ∧ dofs'.length ≤ dofs.length + rest.length := by
  intro rest
  induction rest with
  | nil =>
    intro dofs mat dofs' h hnd
    simp only [deimLoop] at h
    injection h with h
    subst h
    exact ⟨hnd, by simp⟩
  | cons v rest ih =>
    intro dofs mat dofs' h hnd
    simp only [deimLoop] at h
    split at h
    · simp at h
    split at h
    · simp at h
    split at h
    · injection h with h
      subst h
      refine ⟨hnd, ?_⟩
      simp only [List.length_cons]
      omega
    · rename_i hmem
      have hrec := ih _ _ dofs' h (by simp [List.nodup_append, hnd, hmem])
      refine ⟨hrec.1, ?_⟩
      have h2 := hrec.2
      simp only [List.length_append, List.length_cons, List.length_nil] at h2 ⊢
      omega

/-- C9: in deim each POD basis vector contributes at most one
interpolation DOF in a single pass over the basis (so the number of
chosen DOFs never exceeds the number of POD modes and no DOF repeats),
and when selection stops early the returned collateral basis is
truncated to the number of DOFs actually chosen, not the number of POD
modes. -/
theorem deim_single_pass_truncation (solve : List (List ℚ) → List ℚ → Option (List ℚ))
    (B : List (List ℚ)) (r : List ℕ × List (List ℚ)) (h : deim solve B = some r) :
    r.1.Nodup ∧ r.1.length ≤ B.length ∧ r.2 = B.take r.1.length := by
  unfold deim at h
  cases hl : deimLoop solve B B [] [] with
  | none => rw [hl] at h; simp at h
  | some dofs =>
    rw [hl] at h
    simp only [Option.map_some', Option.some.injEq] at h
    subst h
    obtain ⟨hnd, hlen⟩ := deimLoop_nodup_len solve B B [] [] dofs hl (by simp)
    simp only [List.length_nil, Nat.zero_add] at hlen
    refine ⟨hnd, hlen, ?_⟩
    by_cases hc : dofs.length < B.length
    · simp [hc]
    · have he : dofs.length = B.length := by omega
      simp [hc, he]

/-- C9 witness: deim on the two identical POD vectors (1,2) chooses the
DOF 1 for the first vector, hits the repeated DOF 1 for the second and
truncates the collateral basis to one vector. -/
theorem deim_single_pass_truncation_witness :
    ((([1], [[(1 : ℚ), 2]]) : List ℕ × List (List ℚ)).1.Nodup ∧
      (([1], [[(1 : ℚ), 2]]) : List ℕ × List (List ℚ)).1.length ≤
        ([[(1 : ℚ), 2], [1, 2]] : List (List ℚ)).length ∧
      (([1], [[(1 : ℚ), 2]]) : List ℕ × List (List ℚ)).2 =
        ([[(1 : ℚ), 2], [1, 2]] : List (List ℚ)).take
          (([1], [[(1 : ℚ), 2]]) : List ℕ × List (List ℚ)).1.length) :=
  deim_single_pass_truncation (fun _ b => some b) [[1, 2], [1, 2]] ([1], [[1, 2]])
    (by norm_num [deim, deimLoop, amaxAbs, amaxP, dofsRow, interpMatrix, vsub, lincomb,
      abs_of_nonneg])

/-- C3: after ei_greedy returns, and after deim returns, the number of
interpolation DOFs equals the number of collateral basis vectors. -/
theorem dofs_length_eq_basis_length :
    (∀ (p : EIParams) (U : List (List ℚ)) (r : EIResult), ei_greedy p U = some r →
      r.interpolation_dofs.length = r.collateral_basis.length) ∧
    (∀ (solve : List (List ℚ) → List ℚ → Option (List ℚ)) (B : List (List ℚ))
      (r : List ℕ × List (List ℚ)), deim solve B = some r →
      r.1.length = r.2.length) := by
  constructor
  · intro p U r h
    unfold ei_greedy at h
    cases hm : amaxP (U.map p.error_norm) with
    | none => rw [hm] at h; simp at h
    | some q =>
      obtain ⟨j, e⟩ := q
      rw [hm] at h
      simp only at h
      obtain ⟨hlen, _, _, _⟩ :=
        eiLoop_invariant p e _ _ _ _ _ _ _ r h (by simp) (by simp) (by simp) (by simp)
      exact hlen
  · intro solve B r h
    unfold deim at h
    cases hl : deimLoop solve B B [] [] with
    | none => rw [hl] at h; simp at h
    | some dofs =>
      rw [hl] at h
      simp only [Option.map_some', Option.some.injEq] at h
      subst h
      obtain ⟨_, hlen⟩ := deimLoop_nodup_len solve B B [] [] dofs hl (by simp)
      simp only [List.length_nil, Nat.zero_add] at hlen
      by_cases hc : dofs.length < B.length
      · simp [hc, List.length_take]
        omega
      · have he : dofs.length = B.length := by omega
        simp [hc, he]

/-- C3 witness at concrete inputs for both algorithms. -/
theorem dofs_length_eq_basis_length_witness :
    (([0] : List ℕ).length = ([[(1 : ℚ), 1/2]] : List (List ℚ)).length) ∧
    (([0] : List ℕ).length = ([[(3 : ℚ), 1]] : List (List ℚ)).length) := by
  constructor
  · exact dofs_length_eq_basis_length.1 ⟨supNorm, none, none, none⟩ [[2, 1]]
      ⟨[0], [[1, 1/2]], [2], .dofRepeated⟩
      (by norm_num [ei_greedy, eiLoop, amaxP, amaxAbs, deflate, maxDim, supNorm,
        abs_of_nonneg])
  · exact dofs_length_eq_basis_length.2 (fun _ b => some b) [[3, 1]] ([0], [[3, 1]])
      (by norm_num [deim, deimLoop, amaxAbs, amaxP, dofsRow, interpMatrix, vsub, lincomb,
        abs_of_nonneg])

/-- C5 witness at a concrete input. -/
theorem ei_greedy_basis_one_at_own_dof_witness :
    (([[(1 : ℚ), 1/2]] : List (List ℚ)).getD 0 []).getD (([0] : List ℕ).getD 0 0) 0 = 1 := by
  have h :=
    ei_greedy_basis_one_at_own_dof ⟨supNorm, none, none, none⟩ [[2, 1]]
      ⟨[0], [[1, 1/2]], [2], .dofRepeated⟩ 0
      (by norm_num [ei_greedy, eiLoop, amaxP, amaxAbs, deflate, maxDim, supNorm,
        abs_of_nonneg])
      (by norm_num)
  exact h

/-- C6 (amended) witness at a concrete input ending at the zero-pivot
break. -/
theorem ei_greedy_errors_length_witness :
    ([(3 : ℚ)] : List ℚ).length = ([1] : List ℕ).length := by
  have h :=
    ei_greedy_errors_length ⟨supNorm, none, none, none⟩ [[1, 3]]
      ⟨[1], [[1/3, 1]], [3], .zeroPivot⟩
      (by norm_num [ei_greedy, eiLoop, amaxP, amaxAbs, deflate, maxDim, supNorm,
        abs_of_nonneg])
  exact h

/-! The distributed variant _parallel_ei_greedy (ei.py lines 348-453).
The worker pool scatters U into ordered per-worker shards (scatter_array
is external pool code; it is modelled as an arbitrary order-preserving
partition of U into shards). Each worker holds a state dict with its
shard and its local argmax index; the coordinator sees only the list of
worker-reported local maxima. -/

/-- Per-worker state dict pushed by _parallel_ei_greedy: the local shard
of U and the locally computed max_err_ind. -/
structure WorkerState where
  shard : List (List ℚ)
  max_err_ind : ℕ
  deriving DecidableEq

/-- Local maximum error a worker reports (errs[max_err_ind]). -/
def shardMax (f : List ℚ → ℚ) (sh : List (List ℚ)) : ℚ :=
  match amaxP (sh.map f) with
  | some q => q.2
  | none => 0

/-- Local argmax index a worker stores in its data dict. -/
def shardArg (f : List ℚ → ℚ) (sh : List (List ℚ)) : ℕ :=
  match amaxP (sh.map f) with
  | some q => q.1
  | none => 0

/-- Worker-side initialization _parallel_ei_greedy_initialize: store the
shard and the local argmax, return the local maximum error (none models
the ValueError np.argmax raises on an empty shard). -/
def workerInitFn (f : List ℚ → ℚ) (sh : List (List ℚ)) : Option (WorkerState × ℚ) :=
  match amaxP (sh.map f) with
  | none => none
  | some (i, e) => some (⟨sh, i⟩, e)

/-- Worker-side update _parallel_ei_greedy_update: deflate the local
shard by the broadcast vector and DOF, store the new local argmax and
return the new local maximum error. -/
def workerUpdateFn (f : List ℚ → ℚ) (new_vec : List ℚ) (new_dof : ℕ)
    (w : WorkerState) : Option (WorkerState × ℚ) :=
  let sh' := w.shard.map (deflate new_dof new_vec)
  match amaxP (sh'.map f) with
  | none => none
  | some (i, e) => some (⟨sh', i⟩, e)

/-- pool.apply: apply a worker function on every worker, collecting the
results in worker order; any worker-side exception aborts the whole
operation. -/
def mapOpt {α β : Type} (g : α → Option β) : List α → Option (List β)
  | [] => some []
  | x :: xs =>
    match g x, mapOpt g xs with
    | some y, some ys => some (y :: ys)
    | _, _ => none

/-- Main loop of _parallel_ei_greedy (ei.py lines 368-405): the
coordinator argmaxes over worker maxima, fetches the worst vector from
the owning worker only, runs the same selection checks as the sequential
loop, and broadcasts the accepted vector and DOF for the per-shard
deflation round. -/
def parLoop (p : EIParams) (initial_max_err : ℚ) :
    ℕ → List WorkerState → List ℕ → List (List ℚ) → List ℚ → ℕ → ℚ → Option EIResult
  | 0, _, _, _, _, _, _ => none
  | fuel + 1, workers, dofs, basis, max_errs, max_err_ind, max_err =>
    if (p.max_interpolation_dofs.map (fun m => decide (m ≤ dofs.length))).getD false then
      some ⟨dofs, basis, max_errs, .maxDofsReached⟩
    else if (p.atol.map (fun a => decide (max_err ≤ a))).getD false then
      some ⟨dofs, basis, max_errs, .atolReached⟩
    else if (p.rtol.map (fun r => decide (max_err / initial_max_err ≤ r))).getD false then
      some ⟨dofs, basis, max_errs, .rtolReached⟩
    else
      let w := workers.getD max_err_ind ⟨[], 0⟩
      let new_vec_raw := w.shard.getD w.max_err_ind []
      match amaxAbs new_vec_raw with
      | none => none
      | some new_dof =>
        if new_dof ∈ dofs then
          some ⟨dofs, basis, max_errs, .dofRepeated⟩
        else
          let new_dof_value := new_vec_raw.getD new_dof 0
          if new_dof_value = 0 then
            some ⟨dofs, basis, max_errs, .zeroPivot⟩
          else
            let new_vec := new_vec_raw.map (fun q => q * (1 / new_dof_value))
            match mapOpt (workerUpdateFn p.error_norm new_vec new_dof) workers with
            | none => none
            | some ws =>
              match amaxP (ws.map Prod.snd) with
              | none => none
              | some (i, e) =>
                parLoop p initial_max_err fuel (ws.map Prod.fst) (dofs ++ [new_dof])
                  (basis ++ [new_vec]) (max_errs ++ [max_err]) i e

/-- _parallel_ei_greedy on an already-scattered input, taking the
ordered list of per-worker shards (whose concatenation is U). -/
def parallel_ei_greedy (p : EIParams) (shards : List (List (List ℚ))) : Option EIResult :=
  match mapOpt (workerInitFn p.error_norm) shards with
  | none => none
  | some ws =>
    match amaxP (ws.map Prod.snd) with
    | none => none
    | some (i, e) => parLoop p e (maxDim shards.flatten + 1) (ws.map Prod.fst) [] [] [] i e

/-- How the first-occurrence argmax splits over list concatenation. -/
theorem amaxP_append (xs ys : List ℚ) :
    amaxP (xs ++ ys) =
      match amaxP xs, amaxP ys with
      | none, r => r
      | some q, none => some q
      | some (i, v), some (j, w) =>
          if v < w then some (xs.length + j, w) else some (i, v) := by
  induction xs with
  | nil =>
    cases hys : amaxP ys <;> simp [amaxP, hys]
  | cons x xs ih =>
    have hL : amaxP ((x :: xs) ++ ys) = amaxP (x :: (xs ++ ys)) := rfl
    rw [hL]
    simp only [amaxP, ih]
    cases hxs : amaxP xs with
    | none =>
      have hxe : xs = [] := (amaxP_eq_none_iff xs).mp hxs
      subst hxe
      cases hys : amaxP ys with
      | none => simp
      | some q =>
        obtain ⟨j, w⟩ := q
        by_cases hc : x < w <;> simp [hc, Nat.add_comm]
    | some q =>
      obtain ⟨i, v⟩ := q
      cases hys : amaxP ys with
      | none =>
        by_cases hc : x < v <;> simp [hc]
      | some q2 =>
        obtain ⟨j, w⟩ := q2
        by_cases hvw : v < w
        · simp only [if_pos hvw]
          by_cases hxw : x < w
          · have hxv' : (if x < v then some (i + 1, v) else some (0, x)) =
                (if x < v then some (i + 1, v) else some (0, x)) := rfl
            by_cases hxv : x < v
            · simp [hxw, hxv, hvw]
              omega
            · simp [hxw, hxv, hvw]
              omega
          · have hxv : ¬ x < v := fun hlt => hxw (lt_trans hlt hvw)
            simp [hxw, hxv]
        · simp only [if_neg hvw]
          by_cases hxv : x < v
          · simp [hxv, hvw]
          · have hxw : ¬ x < w := fun hlt => hxv (lt_of_lt_of_le hlt (not_lt.mp hvw))
            simp [hxv, hxw]

theorem amaxP_shard {sh : List (List ℚ)} (f : List ℚ → ℚ) (h : sh ≠ []) :
    amaxP (sh.map f) = some (shardArg f sh, shardMax f sh) := by
  cases hm : amaxP (sh.map f) with
  | none =>
    have := (amaxP_eq_none_iff _).mp hm
    simp at this
    exact absurd this h
  | some q =>
    obtain ⟨i, e⟩ := q
    simp [shardArg, shardMax, hm]

theorem getD_append_right_len {α : Type} (xs ys : List α) (j : ℕ) (d : α) :
    (xs ++ ys).getD (xs.length + j) d = ys.getD j d := by
  simp [List.getD_eq_getElem?_getD, List.getElem?_append_right (Nat.le_add_right xs.length j)]

theorem flatten_map_map {α β : Type} (g : α → β) (L : List (List α)) :
    (L.map (List.map g)).flatten = L.flatten.map g := by
  induction L with
  | nil => simp
  | cons l L ih => simp only [List.map_cons, List.flatten_cons, List.map_append, ih]

/-- Composition of argmax over an ordered sharding: the coordinator
argmax over the worker-reported local maxima finds the same value as the
global argmax over the concatenation, and the vector it designates (the
stored local argmax of the owning worker) is the globally selected
vector. -/
theorem amaxP_flatten (f : List ℚ → ℚ) :
    ∀ (S : List (List (List ℚ))), (∀ sh ∈ S, sh ≠ []) →
      ∀ (w : ℕ) (gv : ℚ),
        amaxP (S.map (fun sh => shardMax f sh)) = some (w, gv) →
        ∃ gi, amaxP (S.flatten.map f) = some (gi, gv) ∧
          S.flatten.getD gi [] = (S.getD w []).getD (shardArg f (S.getD w [])) [] := by
  intro S
  induction S with
  | nil =>
    intro _ w gv hco
    simp [amaxP] at hco
  | cons sh S ih =>
    intro hne w gv hco
    have hshne : sh ≠ [] := hne sh (by simp)
    have hS'ne : ∀ s ∈ S, s ≠ [] := fun s hs => hne s (by simp [hs])
    simp only [List.map_cons, amaxP] at hco
    have hflat : (sh :: S).flatten.map f = (sh.map f) ++ (S.flatten.map f) := by
      simp
    cases hS : amaxP (S.map (fun s => shardMax f s)) with
    | none =>
      have hSnil : S = [] := by
        have := (amaxP_eq_none_iff _).mp hS
        simpa using this
      subst hSnil
      rw [hS] at hco
      simp only [Option.some.injEq, Prod.mk.injEq] at hco
      obtain ⟨hw, hv⟩ := hco
      subst hv
      refine ⟨shardArg f sh, ?_, ?_⟩
      · rw [hflat]
        simpa using amaxP_shard f hshne
      · rw [← hw]
        simp
    | some q =>
      obtain ⟨j, v'⟩ := q
      rw [hS] at hco
      simp only at hco
      obtain ⟨gi', hgi', hfetch'⟩ := ih hS'ne j v' hS
      rw [hflat, amaxP_append, amaxP_shard f hshne, hgi']
      simp only
      split at hco
      · rename_i hlt
        simp only [Option.some.injEq, Prod.mk.injEq] at hco
        obtain ⟨hw, hv⟩ := hco
        subst hv
        refine ⟨sh.length + gi', ?_, ?_⟩
        · simp [hlt]
        · rw [← hw, List.flatten_cons, getD_append_right_len]
          simpa using hfetch'
      · rename_i hlt
        simp only [Option.some.injEq, Prod.mk.injEq] at hco
        obtain ⟨hw, hv⟩ := hco
        subst hv
        refine ⟨shardArg f sh, ?_, ?_⟩
        · simp [hlt]
        · rw [← hw]
          have hb : shardArg f sh < sh.length := by
            have := amaxP_lt_length (amaxP_shard f hshne)
            simpa using this
          simp only [List.getD_cons_zero]
          exact List.getD_append sh S.flatten [] (shardArg f sh) hb

theorem workerInitFn_eq (f : List ℚ → ℚ) (sh : List (List ℚ)) (h : sh ≠ []) :
    workerInitFn f sh = some (⟨sh, shardArg f sh⟩, shardMax f sh) := by
  unfold workerInitFn
  rw [amaxP_shard f h]

theorem workerUpdateFn_eq (f : List ℚ → ℚ) (nv : List ℚ) (nd : ℕ)
    (sh : List (List ℚ)) (i : ℕ) (h : sh ≠ []) :
    workerUpdateFn f nv nd ⟨sh, i⟩ =
      some (⟨sh.map (deflate nd nv), shardArg f (sh.map (deflate nd nv))⟩,
        shardMax f (sh.map (deflate nd nv))) := by
  unfold workerUpdateFn
  have hne : sh.map (deflate nd nv) ≠ [] := by simpa using h
  simp only
  rw [amaxP_shard f hne]

theorem mapOpt_eq_map {α β : Type} (g : α → Option β) (k : α → β) :
    ∀ (l : List α), (∀ x ∈ l, g x = some (k x)) → mapOpt g l = some (l.map k) := by
  intro l
  induction l with
  | nil => intro _; rfl
  | cons x xs ih =>
    intro h
    simp only [mapOpt]
    rw [h x (by simp), ih (fun y hy => h y (by simp [hy]))]
    simp

theorem getD_map_worker (f : List ℚ → ℚ) (S : List (List (List ℚ))) (wi : ℕ) :
    (S.map (fun sh => WorkerState.mk sh (shardArg f sh))).getD wi ⟨[], 0⟩ =
      ⟨S.getD wi [], shardArg f (S.getD wi [])⟩ := by
  induction S generalizing wi with
  | nil =>
    cases wi <;> simp [shardArg, amaxP]
  | cons sh S ih =>
    cases wi with
    | zero => simp
    | succ n => simpa using ih n

theorem worker_shard_getD (f : List ℚ → ℚ) (S : List (List (List ℚ))) (wi : ℕ) :
    ((S.map (fun sh => WorkerState.mk sh (shardArg f sh))).getD wi ⟨[], 0⟩).shard =
      S.getD wi [] := by
  rw [getD_map_worker]

theorem worker_ind_getD (f : List ℚ → ℚ) (S : List (List (List ℚ))) (wi : ℕ) :
    ((S.map (fun sh => WorkerState.mk sh (shardArg f sh))).getD wi ⟨[], 0⟩).max_err_ind =
      shardArg f (S.getD wi []) := by
  rw [getD_map_worker]

/-- Lockstep equivalence of the distributed and the sequential EI-Greedy
main loops: when the worker shards concatenate to the sequential array,
every iteration selects the same vector, the same DOF and the same
error value, so the two loops return identical results. -/
theorem parLoop_eq_eiLoop (p : EIParams) (ime : ℚ) :
    ∀ (fuel : ℕ) (S : List (List (List ℚ))) (dofs : List ℕ) (basis : List (List ℚ))
      (max_errs : List ℚ) (mi wi : ℕ) (me : ℚ),
      (∀ sh ∈ S, sh ≠ []) →
      amaxP (S.flatten.map p.error_norm) = some (mi, me) →
      amaxP (S.map (fun sh => shardMax p.error_norm sh)) = some (wi, me) →
      parLoop p ime fuel (S.map (fun sh => WorkerState.mk sh (shardArg p.error_norm sh)))
          dofs basis max_errs wi me =
        eiLoop p ime fuel S.flatten dofs basis max_errs mi me := by
  intro fuel
  induction fuel with
  | zero =>
    intro S dofs basis max_errs mi wi me hne hseq hco
    rfl
  | succ n ih =>
    intro S dofs basis max_errs mi wi me hne hseq hco
    obtain ⟨gi, hgi, hfetch⟩ := amaxP_flatten p.error_norm S hne wi me hco
    have hgim : gi = mi := by
      rw [hseq] at hgi
      injection hgi with hgi
      exact ((Prod.mk.injEq .. ▸ hgi).1).symm
    subst hgim
    simp only [parLoop, eiLoop]
    by_cases h1 :
        (Option.map (fun m => decide (m ≤ dofs.length)) p.max_interpolation_dofs).getD false = true
    · simp [h1]
    by_cases h2 : (Option.map (fun a => decide (me ≤ a)) p.atol).getD false = true
    · simp [h1, h2]
    by_cases h3 :
        (Option.map (fun r => decide (me / ime ≤ r)) p.rtol).getD false = true
    · simp [h1, h2, h3]
    simp only [h1, h2, h3, Bool.false_eq_true, if_false]
    rw [worker_shard_getD p.error_norm, worker_ind_getD p.error_norm, ← hfetch]
    cases hA : amaxAbs (S.flatten.getD gi []) with
    | none => rfl
    | some new_dof =>
      dsimp only
      by_cases hmem : new_dof ∈ dofs
      · simp [hmem]
      simp only [hmem, if_false]
      by_cases hz : (S.flatten.getD gi []).getD new_dof 0 = 0
      · simp only [if_pos hz]
      simp only [if_neg hz]
      have hSfne : S.flatten ≠ [] := by
        intro hc
        rw [hc] at hseq
        simp [amaxP] at hseq
      have hSne : S ≠ [] := by
        intro hc
        subst hc
        exact hSfne rfl
      set nv := (S.flatten.getD gi []).map
        (fun q => q * (1 / (S.flatten.getD gi []).getD new_dof 0)) with hnv
      have hup :
          mapOpt (workerUpdateFn p.error_norm nv new_dof)
            (S.map (fun sh => WorkerState.mk sh (shardArg p.error_norm sh))) =
          some (S.map (fun sh =>
            (WorkerState.mk (sh.map (deflate new_dof nv))
              (shardArg p.error_norm (sh.map (deflate new_dof nv))),
             shardMax p.error_norm (sh.map (deflate new_dof nv))))) := by
        rw [mapOpt_eq_map (workerUpdateFn p.error_norm nv new_dof)
          (fun w => (WorkerState.mk (w.shard.map (deflate new_dof nv))
              (shardArg p.error_norm (w.shard.map (deflate new_dof nv))),
             shardMax p.error_norm (w.shard.map (deflate new_dof nv))))]
        · rw [List.map_map]
          rfl
        · intro x hx
          simp only [List.mem_map] at hx
          obtain ⟨sh, hsh, rfl⟩ := hx
          exact workerUpdateFn_eq p.error_norm nv new_dof sh _ (hne sh hsh)
      rw [hup]
      simp only
      have hmapfst :
          (S.map (fun sh =>
            (WorkerState.mk (sh.map (deflate new_dof nv))
              (shardArg p.error_norm (sh.map (deflate new_dof nv))),
             shardMax p.error_norm (sh.map (deflate new_dof nv))))).map Prod.fst =
          (S.map (List.map (deflate new_dof nv))).map
            (fun sh => WorkerState.mk sh (shardArg p.error_norm sh)) := by
        rw [List.map_map, List.map_map]
        rfl
      have hmapsnd :
          (S.map (fun sh =>
            (WorkerState.mk (sh.map (deflate new_dof nv))
              (shardArg p.error_norm (sh.map (deflate new_dof nv))),
             shardMax p.error_norm (sh.map (deflate new_dof nv))))).map Prod.snd =
          (S.map (List.map (deflate new_dof nv))).map
            (fun sh => shardMax p.error_norm sh) := by
        rw [List.map_map, List.map_map]
        rfl
      rw [hmapfst, hmapsnd]
      have hne' : ∀ sh ∈ S.map (List.map (deflate new_dof nv)), sh ≠ [] := by
        intro sh hsh
        simp only [List.mem_map] at hsh
        obtain ⟨sh0, hsh0, rfl⟩ := hsh
        simpa using hne sh0 hsh0
      have hcone : (S.map (List.map (deflate new_dof nv))).map
          (fun sh => shardMax p.error_norm sh) ≠ [] := by
        simpa using hSne
      obtain ⟨wi', cv', hco'⟩ := amaxP_isSome hcone
      obtain ⟨gi', hgi', _⟩ :=
        amaxP_flatten p.error_norm (S.map (List.map (deflate new_dof nv))) hne' wi' cv' hco'
      have hflatd :
          (S.map (List.map (deflate new_dof nv))).flatten = S.flatten.map (deflate new_dof nv) :=
        flatten_map_map _ S
      rw [hco']
      have hgiseq :
          amaxP ((S.flatten.map (deflate new_dof nv)).map p.error_norm) = some (gi', cv') := by
        rw [← hflatd]
        exact hgi'
      rw [hgiseq]
      simp only
      have hrec := ih (S.map (List.map (deflate new_dof nv))) (dofs ++ [new_dof])
        (basis ++ [nv]) (max_errs ++ [me]) gi' wi' cv' hne'
        (by rw [hflatd]; exact hgiseq) hco'
      rw [hflatd] at hrec
      exact hrec

/-- C1: distributed and sequential EI-Greedy agree. For every ordered
partition of the input collection into nonempty worker shards (the
scatter performed by the external worker pool) and identical parameters,
_parallel_ei_greedy returns exactly the result of the sequential
ei_greedy on the concatenated collection: identical interpolation_dofs
in the same selection order (and identical collateral basis, errors
diagnostic and stopping cause). -/
theorem parallel_eq_sequential_ei_greedy (p : EIParams)
    (shards : List (List (List ℚ))) (hws : shards ≠ [])
    (hne : ∀ sh ∈ shards, sh ≠ []) :
    parallel_ei_greedy p shards = ei_greedy p shards.flatten := by
  unfold parallel_ei_greedy ei_greedy
  have hinit : mapOpt (workerInitFn p.error_norm) shards =
      some (shards.map (fun sh =>
        (WorkerState.mk sh (shardArg p.error_norm sh), shardMax p.error_norm sh))) :=
    mapOpt_eq_map _ _ shards (fun sh hsh => workerInitFn_eq p.error_norm sh (hne sh hsh))
  rw [hinit]
  dsimp only
  have hsnd : (shards.map (fun sh =>
      (WorkerState.mk sh (shardArg p.error_norm sh), shardMax p.error_norm sh))).map Prod.snd =
      shards.map (fun sh => shardMax p.error_norm sh) := by
    rw [List.map_map]
    rfl
  have hfst : (shards.map (fun sh =>
      (WorkerState.mk sh (shardArg p.error_norm sh), shardMax p.error_norm sh))).map Prod.fst =
      shards.map (fun sh => WorkerState.mk sh (shardArg p.error_norm sh)) := by
    rw [List.map_map]
    rfl
  rw [hsnd, hfst]
  have hcone : shards.map (fun sh => shardMax p.error_norm sh) ≠ [] := by
    simpa using hws
  obtain ⟨wi, cv, hcoord⟩ := amaxP_isSome hcone
  obtain ⟨gi, hgi, _⟩ := amaxP_flatten p.error_norm shards hne wi cv hcoord
  rw [hcoord, hgi]
  exact parLoop_eq_eiLoop p cv (maxDim shards.flatten + 1) shards [] [] [] gi wi cv
    hne hgi hcoord

/-- C1 witness: a two-worker partition of a two-vector collection. -/
theorem parallel_eq_sequential_ei_greedy_witness :
    (([[[(4 : ℚ), 1]], [[2, 3]]] : List (List (List ℚ))) ≠ []) ∧
    (∀ sh ∈ ([[[(4 : ℚ), 1]], [[2, 3]]] : List (List (List ℚ))), sh ≠ []) ∧
    parallel_ei_greedy ⟨supNorm, none, none, none⟩ [[[(4 : ℚ), 1]], [[2, 3]]] =
      ei_greedy ⟨supNorm, none, none, none⟩
        ([[[(4 : ℚ), 1]], [[2, 3]]] : List (List (List ℚ))).flatten := by
  refine ⟨by simp, ?_, ?_⟩
  · intro sh hsh
    simp only [List.mem_cons, List.not_mem_nil, or_false] at hsh
    rcases hsh with h | h <;> subst h <;> simp
  · exact parallel_eq_sequential_ei_greedy ⟨supNorm, none, none, none⟩
      [[[(4 : ℚ), 1]], [[2, 3]]] (by simp)
      (by
        intro sh hsh
        simp only [List.mem_cons, List.not_mem_nil, or_false] at hsh
        rcases hsh with h | h <;> subst h <;> simp)

end PymorEI

namespace PymorNewton

/-!
Embedding of the Newton solver (src/pymor/algorithms/newton.py, lines
95-206). The operator, its Jacobian solve and the norm are external
capabilities (the Operator and VectorArray interfaces) and enter as a
record of abstract functions on an abstract vector type. The relaxation
parameter is modelled in its numeric form; the string form armijo
dispatches to the external line-search algorithm
(pymor.algorithms.line_search) and is outside the verified sources.
Norm values live in a domain with the IEEE non-finite values inf, -inf
and nan, since the stagnation threshold defaults to np.inf and the
solver tests norms with np.isfinite.
-/

/-- Value domain of norms and thresholds: finite rationals plus the
non-finite IEEE values. -/
inductive Fl where
  | fin : ℚ → Fl
  | inf : Fl
  | ninf : Fl
  | nan : Fl
  deriving DecidableEq

/-- IEEE less-than: any comparison with nan is false. -/
def Fl.lt : Fl → Fl → Bool
  | .nan, _ => false
  | _, .nan => false
  | .ninf, .ninf => false
  | .ninf, _ => true
  | _, .ninf => false
  | .inf, _ => false
  | .fin _, .inf => true
  | .fin a, .fin b => decide (a < b)

/-- IEEE multiplication on the sign lattice: nan is absorbing, zero
times an infinity is nan. -/
def Fl.mul : Fl → Fl → Fl
  | .nan, _ => .nan
  | _, .nan => .nan
  | .fin a, .fin b => .fin (a * b)
  | .inf, .inf => .inf
  | .inf, .ninf => .ninf
  | .ninf, .inf => .ninf
  | .ninf, .ninf => .inf
  | .inf, .fin b => if 0 < b then .inf else if b < 0 then .ninf else .nan
  | .fin a, .inf => if 0 < a then .inf else if a < 0 then .ninf else .nan
  | .ninf, .fin b => if 0 < b then .ninf else if b < 0 then .inf else .nan
  | .fin a, .ninf => if 0 < a then .ninf else if a < 0 then .inf else .nan

/-- np.isfinite. -/
def Fl.isfinite : Fl → Bool
  | .fin _ => true
  | _ => false

/-- A value that is not negative (norms are such values): finite
nonnegative, inf, or nan (nan compares false everywhere, which is all
the convergence logic relies on). -/
def flNonneg : Fl → Bool
  | .fin q => decide (0 ≤ q)
  | .ninf => false
  | _ => true

/-- Python max over a nonempty sequence: keep the first maximal element
(an item replaces the accumulator only when strictly greater). The
empty case is unreachable at all call sites (Python max would raise). -/
def pymax : List Fl → Fl
  | [] => .nan
  | x :: xs => xs.foldl (fun acc y => if Fl.lt acc y then y else acc) x

/-- Python slice l[-k:], the last k elements. -/
def lastN {α : Type} (k : ℕ) (l : List α) : List α := l.drop (l.length - k)

/-- The keyword parameters of newton; error_measure is recorded as the
Boolean residual_measure (true for residual, false for update). -/
structure NewtonParams where
  miniter : ℕ
  maxiter : ℕ
  atol : ℚ
  rtol : ℚ
  relax : ℚ
  stagnation_window : ℕ
  stagnation_threshold : Fl
  residual_measure : Bool
  return_stages : Bool
  return_residuals : Bool

/-- The operator/vector capabilities newton consumes: apply is
operator.apply at fixed parameter values, jacSolve U residual is
operator.jacobian(U).apply_inverse(residual, least_squares) with none
modelling the InversionError it raises, sub and axpy are the vector
operations rhs - A(U) and U.axpy(step, update), and norm is
v.norm(error_product)[0]. -/
structure NewtonOps (V : Type) where
  apply : V → V
  jacSolve : V → V → Option V
  sub : V → V → V
  axpy : ℚ → V → V → V
  norm : V → Fl

/-- The three raise sites of newton, tagged with the iteration count at
the raise (the two Python messages are Failed to converge, used both at
the maxiter check and at the non-finite check, and Could not invert
jacobian). -/
inductive NewtonFailure where
  | maxiterReached (iteration : ℕ)
  | jacobianInversion (iteration : ℕ)
  | nonfiniteNorm (iteration : ℕ)
  deriving DecidableEq

/-- The diagnostics dict of newton. -/
structure NewtonData (V : Type) where
  solution_norms : List Fl
  update_norms : List Fl
  residual_norms : List Fl
  stages : List V
  residuals : List V

/-- Outcome of one pass over the convergence/failure checks at the top
of the while loop (newton.py lines 130-143), with one constructor per
exit site. -/
inductive TermCheck where
  | go
  | stopAtol
  | stopRtol
  | stopStag
  | fail
  deriving DecidableEq

/-- The convergence/failure checks at the top of the newton loop
(newton.py lines 130-143), evaluated in source order: nothing fires
while iteration < miniter; then absolute threshold, relative threshold,
stagnation over the last stagnation_window entries, and finally the
maxiter failure. -/
def checkTermination (p : NewtonParams) (iteration : ℕ) (err err_scale_factor : Fl)
    (errs : List Fl) : TermCheck :=
  if iteration < p.miniter then .go
  else if Fl.lt err (.fin p.atol) then .stopAtol
  else if Fl.lt err (Fl.mul (.fin p.rtol) err_scale_factor) then .stopRtol
  else if p.stagnation_window + 1 ≤ errs.length ∧
      Fl.lt (Fl.mul p.stagnation_threshold (pymax (lastN (p.stagnation_window + 1) errs))) err then
    .stopStag
  else if p.maxiter ≤ iteration then .fail
  else .go

/-- The newton while loop (newton.py lines 128-200) on explicit fuel,
carrying the iterate, the residual, the three norm histories, the
current error measure and its reference scale, and the optional stage
and residual histories. -/
def newtonLoop {V : Type} (ops : NewtonOps V) (p : NewtonParams) (rhs : V) :
    ℕ → ℕ → V → V → List Fl → List Fl → List Fl → Fl → Fl → List V → List V →
      Option (Except NewtonFailure (V × NewtonData V))
  | 0, _, _, _, _, _, _, _, _, _, _ => none
  | fuel + 1, iteration, U, residual, solution_norms, update_norms, residual_norms,
      err, err_scale_factor, stages, residuals =>
    let errs := if p.residual_measure then residual_norms else update_norms
    match checkTermination p iteration err err_scale_factor errs with
    | .stopAtol =>
      some (.ok (U, ⟨solution_norms, update_norms, residual_norms, stages, residuals⟩))
    | .stopRtol =>
      some (.ok (U, ⟨solution_norms, update_norms, residual_norms, stages, residuals⟩))
    | .stopStag =>
      some (.ok (U, ⟨solution_norms, update_norms, residual_norms, stages, residuals⟩))
    | .fail => some (.error (.maxiterReached iteration))
    | .go =>
      let iteration' := iteration + 1
      let stages' := if p.return_stages then stages ++ [U] else stages
      let residuals' := if p.return_residuals then residuals ++ [residual] else residuals
      match ops.jacSolve U residual with
      | none => some (.error (.jacobianInversion iteration'))
      | some update =>
        let step_size := p.relax
        let U' := ops.axpy step_size U update
        let residual' := ops.sub rhs (ops.apply U')
        let solution_norm := ops.norm U'
        let update_norm := Fl.mul (ops.norm update) (.fin step_size)
        let residual_norm := ops.norm residual'
        let err' := if p.residual_measure then residual_norm else update_norm
        let scale' := if p.residual_measure then err_scale_factor else solution_norm
        if residual_norm.isfinite && solution_norm.isfinite then
          newtonLoop ops p rhs fuel iteration' U' residual'
            (solution_norms ++ [solution_norm]) (update_norms ++ [update_norm])
            (residual_norms ++ [residual_norm]) err' scale' stages' residuals'
        else some (.error (.nonfiniteNorm iteration'))

/-- newton (newton.py lines 95-206): initialize the residual, the norm
histories (update_norms starts with the solution norm, as in the
source), the error measure and its scale, then run the loop. The fuel
bound max miniter maxiter + 2 is proved sufficient. -/
def newton {V : Type} (ops : NewtonOps V) (p : NewtonParams) (rhs U0 : V) :
    Option (Except NewtonFailure (V × NewtonData V)) :=
  let residual := ops.sub rhs (ops.apply U0)
  let solution_norm := ops.norm U0
  let residual_norm := ops.norm residual
  let err := if p.residual_measure then residual_norm else solution_norm
  newtonLoop ops p rhs (max p.miniter p.maxiter + 2) 0 U0 residual
    [solution_norm] [solution_norm] [residual_norm] err err [] []

theorem checkTermination_go_bounds {p : NewtonParams} {n : ℕ} {err scale : Fl}
    {errs : List Fl} (h : checkTermination p n err scale errs = .go) :
    n < p.miniter ∨ n < p.maxiter := by
  unfold checkTermination at h
  split_ifs at h with h1 h2 h3 h4 h5
  · exact Or.inl h1
  all_goals simp_all

theorem checkTermination_fail_bounds {p : NewtonParams} {n : ℕ} {err scale : Fl}
    {errs : List Fl} (h : checkTermination p n err scale errs = .fail) :
    p.miniter ≤ n ∧ p.maxiter ≤ n := by
  unfold checkTermination at h
  split_ifs at h with h1 h2 h3 h4 h5
  all_goals simp_all

/-- C8: the termination logic of newton fires only once
iteration >= miniter, and then in strict priority order: the absolute
threshold first, then the relative threshold, then stagnation over the
last stagnation_window entries, then the maxiter failure; while
iteration < miniter no convergence or failure exit fires (the non-finite
blow-up check sits outside this logic and is not gated by miniter). -/
theorem checkTermination_priority (p : NewtonParams) (it : ℕ) (err scale : Fl)
    (errs : List Fl) :
    (it < p.miniter → checkTermination p it err scale errs = .go) ∧
    (p.miniter ≤ it → Fl.lt err (.fin p.atol) = true →
      checkTermination p it err scale errs = .stopAtol) ∧
    (p.miniter ≤ it → Fl.lt err (.fin p.atol) = false →
      Fl.lt err (Fl.mul (.fin p.rtol) scale) = true →
      checkTermination p it err scale errs = .stopRtol) ∧
    (p.miniter ≤ it → Fl.lt err (.fin p.atol) = false →
      Fl.lt err (Fl.mul (.fin p.rtol) scale) = false →
      (p.stagnation_window + 1 ≤ errs.length ∧
        Fl.lt (Fl.mul p.stagnation_threshold
          (pymax (lastN (p.stagnation_window + 1) errs))) err = true) →
      checkTermination p it err scale errs = .stopStag) ∧
    (p.miniter ≤ it → Fl.lt err (.fin p.atol) = false →
      Fl.lt err (Fl.mul (.fin p.rtol) scale) = false →
      ¬ (p.stagnation_window + 1 ≤ errs.length ∧
        Fl.lt (Fl.mul p.stagnation_threshold
          (pymax (lastN (p.stagnation_window + 1) errs))) err = true) →
      p.maxiter ≤ it →
      checkTermination p it err scale errs = .fail) := by
  refine ⟨?_, ?_, ?_, ?_, ?_⟩
  · intro h
    simp [checkTermination, h]
  · intro h1 h2
    simp [checkTermination, Nat.not_lt.mpr h1, h2]
  · intro h1 h2 h3
    simp [checkTermination, Nat.not_lt.mpr h1, h2, h3]
  · intro h1 h2 h3 h4
    simp [checkTermination, Nat.not_lt.mpr h1, h2, h3, h4]
  · intro h1 h2 h3 h4 h5
    simp [checkTermination, Nat.not_lt.mpr h1, h2, h3, h4, h5]

/-- C8 witness: one concrete instance per clause of the priority order. -/
theorem checkTermination_priority_witness :
    checkTermination ⟨2, 5, 1, 0, 1, 3, .inf, true, false, false⟩ 0 (.fin 0) (.fin 0) [] = .go ∧
    checkTermination ⟨2, 5, 1, 0, 1, 3, .inf, true, false, false⟩ 2 (.fin 0) (.fin 0) [] =
      .stopAtol ∧
    checkTermination ⟨2, 5, -1, 1, 1, 3, .inf, true, false, false⟩ 2 (.fin 0) (.fin 2) [] =
      .stopRtol ∧
    checkTermination ⟨0, 5, 0, 0, 1, 0, .fin 1, true, false, false⟩ 1 (.fin 5) (.fin 2)
      [.fin 4] = .stopStag ∧
    checkTermination ⟨0, 0, 0, 0, 1, 3, .inf, true, false, false⟩ 0 (.fin 1) (.fin 2) [] =
      .fail := by
  refine ⟨?_, ?_, ?_, ?_, ?_⟩
  · exact (checkTermination_priority _ 0 _ _ _).1 (by norm_num)
  · exact (checkTermination_priority _ 2 _ _ _).2.1 (by norm_num)
      (by norm_num [Fl.lt])
  · exact (checkTermination_priority _ 2 _ _ _).2.2.1 (by norm_num)
      (by norm_num [Fl.lt]) (by norm_num [Fl.lt, Fl.mul])
  · exact (checkTermination_priority _ 1 _ _ _).2.2.2.1 (by norm_num)
      (by norm_num [Fl.lt]) (by norm_num [Fl.lt, Fl.mul])
      (by norm_num [Fl.lt, Fl.mul, pymax, lastN])
  · exact (checkTermination_priority _ 0 _ _ _).2.2.2.2 (by norm_num)
      (by norm_num [Fl.lt]) (by norm_num [Fl.lt, Fl.mul])
      (by norm_num [lastN]) (by norm_num)

/-- Totality of the newton loop together with bounds on the iteration
count carried by each failure: the loop always exits within the fuel
budget, a maxiterReached failure happens only with the iteration count
at or past both miniter and maxiter, and the inversion and non-finite
failures carry the iteration at which the respective raise site fired
(at least one Newton step was taken). -/
theorem newtonLoop_props {V : Type} (ops : NewtonOps V) (p : NewtonParams) (rhs : V) :
    ∀ (fuel n : ℕ) (U residual : V) (sn un rn : List Fl) (err scale : Fl)
      (st res : List V),
      1 ≤ fuel → max p.miniter p.maxiter + 1 ≤ fuel + n →
      ∃ r, newtonLoop ops p rhs fuel n U residual sn un rn err scale st res = some r ∧
        (∀ k, r = .error (.maxiterReached k) → p.miniter ≤ k ∧ p.maxiter ≤ k) ∧
        (∀ k, r = .error (.jacobianInversion k) → 1 ≤ k) ∧
        (∀ k, r = .error (.nonfiniteNorm k) → 1 ≤ k) := by
  intro fuel
  induction fuel with
  | zero =>
    intro n U residual sn un rn err scale st res hf _
    omega
  | succ f ih =>
    intro n U residual sn un rn err scale st res hf hbound
    simp only [newtonLoop]
    cases hc : checkTermination p n err scale (if p.residual_measure then rn else un) with
    | stopAtol => exact ⟨_, rfl, by simp, by simp, by simp⟩
    | stopRtol => exact ⟨_, rfl, by simp, by simp, by simp⟩
    | stopStag => exact ⟨_, rfl, by simp, by simp, by simp⟩
    | fail =>
      obtain ⟨hm1, hm2⟩ := checkTermination_fail_bounds hc
      refine ⟨_, rfl, ?_, by simp, by simp⟩
      intro k hk
      simp only [Except.error.injEq, NewtonFailure.maxiterReached.injEq] at hk
      subst hk
      exact ⟨hm1, hm2⟩
    | go =>
      have hb := checkTermination_go_bounds hc
      cases hj : ops.jacSolve U residual with
      | none =>
        refine ⟨_, rfl, by simp, ?_, by simp⟩
        intro k hk
        simp only [Except.error.injEq, NewtonFailure.jacobianInversion.injEq] at hk
        omega
      | some update =>
        cases hfin : (ops.norm (ops.sub rhs (ops.apply (ops.axpy p.relax U update)))).isfinite &&
            (ops.norm (ops.axpy p.relax U update)).isfinite with
        | false =>
          simp only [hfin, Bool.false_eq_true, if_false]
          refine ⟨_, rfl, by simp, by simp, ?_⟩
          intro k hk
          simp only [Except.error.injEq, NewtonFailure.nonfiniteNorm.injEq] at hk
          omega
        | true =>
          simp only [hfin, if_true]
          exact ih (n + 1) _ _ _ _ _ _ _ _ _ (by omega) (by omega)

/-- C7: every newton run terminates and yields either a solution with
diagnostics or exactly one of the three NewtonError raise sites of the
source: reaching maxiter without a stopping criterion (only possible
with the iteration count at or past both miniter and maxiter), an
InversionError from the Jacobian linear solve escalated to a
NewtonError (not retried: the loop ends at once), or a non-finite
residual or solution norm (checked at every iteration, independent of
the miniter/maxiter gates). There is no other failure exit. -/
theorem newton_error_cases {V : Type} (ops : NewtonOps V) (p : NewtonParams)
    (rhs U0 : V) :
    ∃ r, newton ops p rhs U0 = some r ∧
      (∀ k, r = .error (.maxiterReached k) → p.miniter ≤ k ∧ p.maxiter ≤ k) ∧
      (∀ k, r = .error (.jacobianInversion k) → 1 ≤ k) ∧
      (∀ k, r = .error (.nonfiniteNorm k) → 1 ≤ k) := by
  unfold newton
  exact newtonLoop_props ops p rhs (max p.miniter p.maxiter + 2) 0 U0 _ _ _ _ _ _ _ _
    (by omega) (by omega)

/-- C7 witness: a concrete one-dimensional Newton run. -/
theorem newton_error_cases_witness :
    ∃ r, newton (V := ℚ)
        ⟨fun x => x, fun _ r => some r, fun a b => a - b, fun c u v => u + c * v,
          fun x => .fin |x|⟩
        ⟨0, 3, 0, 0, 1, 3, .inf, true, false, false⟩ 2 0 = some r ∧
      (∀ k, r = .error (.maxiterReached k) → (0 : ℕ) ≤ k ∧ 3 ≤ k) ∧
      (∀ k, r = .error (.jacobianInversion k) → 1 ≤ k) ∧
      (∀ k, r = .error (.nonfiniteNorm k) → 1 ≤ k) :=
  newton_error_cases
    ⟨fun x => x, fun _ r => some r, fun a b => a - b, fun c u v => u + c * v,
      fun x => .fin |x|⟩
    ⟨0, 3, 0, 0, 1, 3, .inf, true, false, false⟩ 2 0

theorem lt_fin_zero_of_nonneg {e : Fl} (h : flNonneg e = true) :
    Fl.lt e (.fin 0) = false := by
  cases e with
  | fin q =>
    simp only [flNonneg, decide_eq_true_eq] at h
    simp [Fl.lt, not_lt.mpr h]
  | inf => rfl
  | ninf => simp [flNonneg] at h
  | nan => rfl

theorem lt_nan_right (e : Fl) : Fl.lt e .nan = false := by
  cases e <;> rfl

theorem lt_nan_left (e : Fl) : Fl.lt .nan e = false := by
  cases e <;> rfl

theorem lt_inf_left (e : Fl) : Fl.lt .inf e = false := by
  cases e <;> rfl

theorem lt_mul_zero_scale {e : Fl} (scale : Fl) (h : flNonneg e = true) :
    Fl.lt e (Fl.mul (.fin 0) scale) = false := by
  cases scale with
  | fin b =>
    have : Fl.mul (.fin 0) (.fin b) = .fin 0 := by simp [Fl.mul]
    rw [this]
    exact lt_fin_zero_of_nonneg h
  | inf =>
    have : Fl.mul (.fin 0) .inf = .nan := by simp [Fl.mul]
    rw [this, lt_nan_right]
  | ninf =>
    have : Fl.mul (.fin 0) .ninf = .nan := by simp [Fl.mul]
    rw [this, lt_nan_right]
  | nan => rw [show Fl.mul (.fin 0) .nan = .nan from rfl, lt_nan_right]

theorem stag_never_fires {m : Fl} (err : Fl) (hm : flNonneg m = true) :
    Fl.lt (Fl.mul .inf m) err = false := by
  cases m with
  | fin q =>
    simp only [flNonneg, decide_eq_true_eq] at hm
    rcases lt_or_eq_of_le hm with hq | hq
    · have : Fl.mul .inf (.fin q) = .inf := by simp [Fl.mul, hq]
      rw [this, lt_inf_left]
    · have : Fl.mul .inf (.fin q) = .nan := by simp [Fl.mul, ← hq]
      rw [this, lt_nan_left]
  | inf => rw [show Fl.mul .inf .inf = .inf from rfl, lt_inf_left]
  | ninf => simp [flNonneg] at hm
  | nan => rw [show Fl.mul .inf .nan = .nan from rfl, lt_nan_left]

theorem foldl_choice_mem :
    ∀ (l : List Fl) (a : Fl),
      l.foldl (fun acc y => if Fl.lt acc y then y else acc) a = a ∨
      l.foldl (fun acc y => if Fl.lt acc y then y else acc) a ∈ l := by
  intro l
  induction l with
  | nil => intro a; exact Or.inl rfl
  | cons y ys ih =>
    intro a
    simp only [List.foldl_cons]
    rcases ih (if Fl.lt a y then y else a) with h | h
    · rw [h]
      by_cases hc : Fl.lt a y = true
      · simp [hc]
      · simp [hc]
    · exact Or.inr (by simp [h])

theorem flNonneg_pymax {l : List Fl} (h : ∀ x ∈ l, flNonneg x = true) :
    flNonneg (pymax l) = true := by
  cases l with
  | nil => rfl
  | cons x xs =>
    simp only [pymax]
    rcases foldl_choice_mem xs x with hm | hm
    · rw [hm]; exact h x (by simp)
    · exact h _ (by simp [hm])

theorem flNonneg_mul_fin {a : Fl} {c : ℚ} (ha : flNonneg a = true) (hc : 0 ≤ c) :
    flNonneg (Fl.mul a (.fin c)) = true := by
  cases a with
  | fin q =>
    simp only [flNonneg, decide_eq_true_eq] at ha
    simp [Fl.mul, flNonneg, mul_nonneg ha hc]
  | inf =>
    rcases lt_or_eq_of_le hc with h | h
    · simp [Fl.mul, h, flNonneg]
    · simp [Fl.mul, ← h, flNonneg]
  | ninf => simp [flNonneg] at ha
  | nan => rfl

/-- With atol = 0, rtol = 0 and stagnation_threshold = inf, and a
nonnegative error measure, no stopping criterion of newton can fire:
the strict comparisons err < 0 and err < 0 * scale are false, and
err > inf * max(...) is false for every nonnegative max. -/
theorem checkTermination_no_stop {p : NewtonParams} (hatol : p.atol = 0)
    (hrtol : p.rtol = 0) (hthr : p.stagnation_threshold = .inf)
    (n : ℕ) (err scale : Fl) (errs : List Fl)
    (herr : flNonneg err = true) (herrs : ∀ x ∈ errs, flNonneg x = true) :
    checkTermination p n err scale errs = .go ∨
      checkTermination p n err scale errs = .fail := by
  have h2 : Fl.lt err (.fin p.atol) = false := by
    rw [hatol]; exact lt_fin_zero_of_nonneg herr
  have h3 : Fl.lt err (Fl.mul (.fin p.rtol) scale) = false := by
    rw [hrtol]; exact lt_mul_zero_scale scale herr
  have h4 : Fl.lt (Fl.mul p.stagnation_threshold
      (pymax (lastN (p.stagnation_window + 1) errs))) err = false := by
    rw [hthr]
    refine stag_never_fires err (flNonneg_pymax ?_)
    intro x hx
    exact herrs x (List.drop_subset _ _ hx)
  unfold checkTermination
  rw [h2, h3, h4]
  by_cases hm : n < p.miniter
  · simp [hm]
  by_cases hM : p.maxiter ≤ n
  · simp [hm, hM]
  · simp [hm, hM]

/-- With the default tolerances the newton loop can never exit through a
stopping criterion: every returned value is an error. -/
theorem newtonLoop_no_ok {V : Type} (ops : NewtonOps V) (p : NewtonParams) (rhs : V)
    (hatol : p.atol = 0) (hrtol : p.rtol = 0) (hthr : p.stagnation_threshold = .inf)
    (hrelax : 0 ≤ p.relax) (hnorm : ∀ v, flNonneg (ops.norm v) = true) :
    ∀ (fuel n : ℕ) (U residual : V) (sn un rn : List Fl) (err scale : Fl)
      (st res : List V),
      flNonneg err = true →
      (∀ x ∈ un, flNonneg x = true) →
      (∀ x ∈ rn, flNonneg x = true) →
      ∀ r, newtonLoop ops p rhs fuel n U residual sn un rn err scale st res = some r →
        ∃ e, r = .error e := by
  intro fuel
  induction fuel with
  | zero =>
    intro n U residual sn un rn err scale st res _ _ _ r h
    simp [newtonLoop] at h
  | succ f ih =>
    intro n U residual sn un rn err scale st res herr hun hrn r h
    simp only [newtonLoop] at h
    have herrs : ∀ x ∈ (if p.residual_measure then rn else un), flNonneg x = true := by
      split
      · exact hrn
      · exact hun
    cases hc : checkTermination p n err scale (if p.residual_measure then rn else un) with
    | stopAtol =>
      rcases checkTermination_no_stop hatol hrtol hthr n err scale _ herr herrs with hk | hk <;>
        simp [hc] at hk
    | stopRtol =>
      rcases checkTermination_no_stop hatol hrtol hthr n err scale _ herr herrs with hk | hk <;>
        simp [hc] at hk
    | stopStag =>
      rcases checkTermination_no_stop hatol hrtol hthr n err scale _ herr herrs with hk | hk <;>
        simp [hc] at hk
    | fail =>
      rw [hc] at h
      simp only [Option.some.injEq] at h
      exact ⟨_, h.symm⟩
    | go =>
      rw [hc] at h
      simp only at h
      cases hj : ops.jacSolve U residual with
      | none =>
        rw [hj] at h
        simp only [Option.some.injEq] at h
        exact ⟨_, h.symm⟩
      | some update =>
        rw [hj] at h
        simp only at h
        cases hfin : (ops.norm (ops.sub rhs (ops.apply (ops.axpy p.relax U update)))).isfinite &&
            (ops.norm (ops.axpy p.relax U update)).isfinite with
        | false =>
          rw [hfin] at h
          simp only [Bool.false_eq_true, if_false, Option.some.injEq] at h
          exact ⟨_, h.symm⟩
        | true =>
          rw [hfin] at h
          simp only [if_true] at h
          refine ih (n + 1) _ _ _ _ _ _ _ _ _ ?_ ?_ ?_ r h
          · split
            · exact hnorm _
            · exact flNonneg_mul_fin (hnorm _) hrelax
          · intro x hx
            simp only [List.mem_append, List.mem_singleton] at hx
            rcases hx with hx | hx
            · exact hun x hx
            · subst hx; exact flNonneg_mul_fin (hnorm _) hrelax
          · intro x hx
            simp only [List.mem_append, List.mem_singleton] at hx
            rcases hx with hx | hx
            · exact hrn x hx
            · subst hx; exact hnorm _

/-- C10: the convergence tests of newton use strict inequality, so with
the default parameters atol = 0, rtol = 0 and
stagnation_threshold = np.inf (and a nonnegative relaxation factor, the
default being 1) no convergence criterion can ever be satisfied when
the error measure is a norm (hence nonnegative): every call with these
defaults ends in a NewtonError, even when some iterate solves the
equation exactly. -/
theorem newton_defaults_always_fail {V : Type} (ops : NewtonOps V) (p : NewtonParams)
    (rhs U0 : V) (hatol : p.atol = 0) (hrtol : p.rtol = 0)
    (hthr : p.stagnation_threshold = .inf) (hrelax : 0 ≤ p.relax)
    (hnorm : ∀ v, flNonneg (ops.norm v) = true) :
    ∃ e, newton ops p rhs U0 = some (.error e) := by
  obtain ⟨r, hr, _⟩ :=
    newtonLoop_props ops p rhs (max p.miniter p.maxiter + 2) 0 U0
      (ops.sub rhs (ops.apply U0)) [ops.norm U0] [ops.norm U0]
      [ops.norm (ops.sub rhs (ops.apply U0))]
      (if p.residual_measure then ops.norm (ops.sub rhs (ops.apply U0)) else ops.norm U0)
      (if p.residual_measure then ops.norm (ops.sub rhs (ops.apply U0)) else ops.norm U0)
      [] [] (by omega) (by omega)
  obtain ⟨e, he⟩ :=
    newtonLoop_no_ok ops p rhs hatol hrtol hthr hrelax hnorm
      (max p.miniter p.maxiter + 2) 0 U0 _ _ _ _ _ _ _ _
      (by split <;> exact hnorm _)
      (by intro x hx; simp only [List.mem_singleton] at hx; subst hx; exact hnorm _)
      (by intro x hx; simp only [List.mem_singleton] at hx; subst hx; exact hnorm _)
      r hr
  subst he
  exact ⟨e, hr⟩

/-- C10 witness: the linear one-dimensional problem x = 2 from the zero
initial guess is solved exactly at the first iterate, yet with the
default tolerances newton still fails. -/
theorem newton_defaults_always_fail_witness :
    ∃ e, newton (V := ℚ)
        ⟨fun x => x, fun _ r => some r, fun a b => a - b, fun c u v => u + c * v,
          fun x => .fin |x|⟩
        ⟨0, 3, 0, 0, 1, 3, .inf, true, false, false⟩ 2 0 = some (.error e) :=
  newton_defaults_always_fail
    ⟨fun x => x, fun _ r => some r, fun a b => a - b, fun c u v => u + c * v,
      fun x => .fin |x|⟩
    ⟨0, 3, 0, 0, 1, 3, .inf, true, false, false⟩ 2 0 rfl rfl rfl (by norm_num)
    (fun v => by simp [flNonneg, abs_nonneg])

end PymorNewton
